import Mathlib

/-!
Verification of the numeric core of the geft image-analysis pipeline.

The definitions below are shallow embeddings of the analysis functions in
src/components/ImageFFTAnalyzer/hooks/useImageAnalysis.ts and
src/components/ImageFFTAnalyzer.tsx: random vertical-line selection,
luminance/derivative extraction, spectral aggregation, Gaussian smoothing,
dominant-frequency (peak) detection, grid-aligned pixel sampling, color
histogramming, and the edge-seeded flood fill that builds the transparent
background matte.

Conventions of the embedding:
- an ImageData pixel buffer is a flat List Nat of RGBA bytes in row-major
  order (index (y*width+x)*4 + channel), read with List.getD _ 0;
- JavaScript floating-point arithmetic is idealized as exact arithmetic
  (rationals where the source only divides and floors, reals where the
  source uses Math.exp);
- the external mathjs FFT is an opaque parameter F; the only fact used
  about it is length preservation (spec section 4.2: the transform length
  equals the input length);
- the unbounded while-loops of the source (random line selection, flood
  fill) are embedded with an explicit iteration budget; theorems about
  their results hold whenever the budget covers the loop, and the budget
  chosen in the top-level definitions provably does.
-/

namespace Geft

/-- One RGBA pixel as the four bytes of an ImageData buffer. -/
structure RGBA where
  r : Nat
  g : Nat
  b : Nat
  a : Nat
deriving DecidableEq, Repr

/-- Byte index of channel 0 of pixel (x, y) in a row-major RGBA buffer of
width w: the source computes (y * width + x) * 4 throughout. -/
def pixelStart (w x y : Nat) : Nat := (y * w + x) * 4

/-- The RGBA quadruple of pixel (x, y), read as the source reads
data[index]..data[index+3]. -/
def pixelAt (w : Nat) (d : List Nat) (x y : Nat) : RGBA :=
  ⟨d.getD (pixelStart w x y) 0, d.getD (pixelStart w x y + 1) 0,
   d.getD (pixelStart w x y + 2) 0, d.getD (pixelStart w x y + 3) 0⟩

/-- The alpha byte of pixel (x, y). -/
def alphaAt (w : Nat) (d : List Nat) (x y : Nat) : Nat :=
  d.getD (pixelStart w x y + 3) 0

/-! ## Random line selection (useImageAnalysis.ts, lines 156-167)

The source loops `while (lines.length < 30 && lines.length < imgWidth)`,
drawing `x = Math.floor(Math.random() * imgWidth)` each iteration and
pushing x when it is not yet used.  The draws are modelled as a stream
s : Nat → Nat (the k-th call of the random source), and the loop as the
state after k iterations. -/

/-- One iteration of the selection loop: draw x; if the loop guard holds
and x is new, push it (the usedPositions set always equals the set of
elements of lines, so membership in lines is the used-check). -/
def lineStep (w x : Nat) (lines : List Nat) : List Nat :=
  if lines.length < 30 ∧ lines.length < w then
    if x ∈ lines then lines else lines ++ [x]
  else lines

/-- The chosen lines after k iterations of the loop, the i-th iteration
drawing s i. -/
def selectLines (w : Nat) (s : Nat → Nat) : Nat → List Nat
  | 0 => []
  | k + 1 => lineStep w (s k) (selectLines w s k)

/-- The loop of the source terminates exactly when some iteration count
reaches min 30 w chosen lines (from then on the guard fails and the state
is fixed). -/
def selectionTerminates (w : Nat) (s : Nat → Nat) : Prop :=
  ∃ k, (selectLines w s k).length = min 30 w

lemma selectLines_const_zero : ∀ k, 1 ≤ k → selectLines 2 (fun _ => 0) k = [0] := by
  intro k hk
  induction k with
  | zero => omega
  | succ n ih =>
    cases Nat.eq_or_lt_of_le hk with
    | inl h =>
      have hn : n = 0 := by omega
      subst hn
      simp [selectLines, lineStep]
    | inr h =>
      have hn : 1 ≤ n := by omega
      rw [selectLines, ih hn]
      simp [lineStep]

/-- CE for C7: with width 2 and a randomness source that always returns 0,
the selection loop of performFFT never finishes: no number of iterations
ever produces min 30 2 = 2 distinct lines, so the while-loop runs forever. -/
theorem selectLines_const_source_never_terminates :
    ¬ selectionTerminates 2 (fun _ => 0) := by
  rintro ⟨k, hk⟩
  rcases Nat.eq_zero_or_pos k with h0 | h1
  · subst h0; simp [selectLines] at hk
  · rw [selectLines_const_zero k h1] at hk
    simp at hk

lemma selectLines_eq_map_range (w : Nat) (s : Nat → Nat)
    (hlt : ∀ j, s j < w)
    (hinj : ∀ i j, i < min 30 w → j < min 30 w → i ≠ j → s i ≠ s j) :
    ∀ k, k ≤ min 30 w → selectLines w s k = (List.range k).map s := by
  intro k
  induction k with
  | zero => intro _; simp [selectLines]
  | succ n ih =>
    intro hle
    have hn : n ≤ min 30 w := Nat.le_of_succ_le hle
    rw [selectLines, ih hn, lineStep]
    have hlen : ((List.range n).map s).length = n := by simp
    have hguard : ((List.range n).map s).length < 30 ∧ ((List.range n).map s).length < w := by
      rw [hlen]
      constructor
      · exact lt_of_lt_of_le (lt_of_lt_of_le (Nat.lt_succ_self n) hle) (min_le_left _ _)
      · exact lt_of_lt_of_le (lt_of_lt_of_le (Nat.lt_succ_self n) hle) (min_le_right _ _)
    rw [if_pos hguard]
    have hnotmem : s n ∉ (List.range n).map s := by
      intro hmem
      rcases List.mem_map.mp hmem with ⟨i, hi, hsi⟩
      have hilt : i < n := List.mem_range.mp hi
      exact hinj i n (lt_of_lt_of_le hilt hn) (lt_of_lt_of_le (Nat.lt_succ_self n) hle)
        (Nat.ne_of_lt hilt) hsi
    rw [if_neg hnotmem, List.range_succ, List.map_append]
    rfl

/-- C7 (amended): for every width ≥ 1 and every randomness source whose
first min 30 w draws are in range and pairwise distinct, the selection
loop terminates after exactly min 30 w iterations, producing min 30 w
distinct column indices in [0, w). -/
theorem selectLines_terminates_of_distinct_draws
    (w : Nat) (s : Nat → Nat) (hw : 1 ≤ w)
    (hlt : ∀ j, s j < w)
    (hinj : ∀ i j, i < min 30 w → j < min 30 w → i ≠ j → s i ≠ s j) :
    (selectLines w s (min 30 w)).length = min 30 w ∧
    (selectLines w s (min 30 w)).Nodup ∧
    ∀ x ∈ selectLines w s (min 30 w), x < w := by
  have heq := selectLines_eq_map_range w s hlt hinj (min 30 w) le_rfl
  rw [heq]
  refine ⟨by simp, ?_, ?_⟩
  · refine List.Nodup.map_on ?_ (List.nodup_range _)
    intro i hi j hj hs
    by_contra hne
    exact hinj i j (List.mem_range.mp hi) (List.mem_range.mp hj) hne hs
  · intro x hx
    rcases List.mem_map.mp hx with ⟨i, _, hsi⟩
    rw [← hsi]
    exact hlt i

/-- Witness for the amended C7 at width 2 with the alternating source
j % 2: the loop finishes after min 30 2 = 2 iterations with 2 distinct
in-range lines. -/
theorem selectLines_terminates_witness :
    (selectLines 2 (fun j => j % 2) (min 30 2)).length = min 30 2 ∧
    (selectLines 2 (fun j => j % 2) (min 30 2)).Nodup ∧
    ∀ x ∈ selectLines 2 (fun j => j % 2) (min 30 2), x < 2 :=
  selectLines_terminates_of_distinct_draws 2 (fun j => j % 2) (by decide)
    (fun j => Nat.mod_lt j (by decide))
    (by intro i j hi hj hne; show i % 2 ≠ j % 2; omega)

/-! ## Peak detection (useImageAnalysis.ts, lines 257-271)

The source scans the smoothed spectrum from startIndex = 5 with the
running state (maxMagnitude, peakFrequency), initially (0, 0), updating
on a strict comparison smoothedMagnitudes[i] > maxMagnitude. -/

/-- One iteration of the dominant-frequency scan. -/
noncomputable def peakStep (s : List ℝ) (acc : ℝ × Nat) (i : Nat) : ℝ × Nat :=
  if s.getD i 0 > acc.1 then (s.getD i 0, i) else acc

/-- The dominant frequency: the peakFrequency component of the scan state
after the loop for i in [5, s.length) has run. -/
noncomputable def findDominantFrequency (s : List ℝ) : Nat :=
  (((List.range s.length).drop 5).foldl (peakStep s) (0, 0)).2

lemma peakScan_invariant (s : List ℝ) :
    ∀ n, (((List.range n).drop 5).foldl (peakStep s) (0, 0) = (0, 0) ∧
        ∀ i, 5 ≤ i → i < n → s.getD i 0 ≤ 0) ∨
      (0 < (((List.range n).drop 5).foldl (peakStep s) (0, 0)).1 ∧
        5 ≤ (((List.range n).drop 5).foldl (peakStep s) (0, 0)).2 ∧
        (((List.range n).drop 5).foldl (peakStep s) (0, 0)).2 < n ∧
        s.getD (((List.range n).drop 5).foldl (peakStep s) (0, 0)).2 0 =
          (((List.range n).drop 5).foldl (peakStep s) (0, 0)).1 ∧
        (∀ i, 5 ≤ i → i < n →
          s.getD i 0 ≤ (((List.range n).drop 5).foldl (peakStep s) (0, 0)).1) ∧
        ∀ i, 5 ≤ i → i < (((List.range n).drop 5).foldl (peakStep s) (0, 0)).2 →
          s.getD i 0 < (((List.range n).drop 5).foldl (peakStep s) (0, 0)).1) := by
  intro n
  induction n with
  | zero => left; constructor <;> simp
  | succ n ih =>
    by_cases hn : n < 5
    · left
      have hdrop : (List.range (n + 1)).drop 5 = [] := by
        apply List.drop_eq_nil_of_le
        simp
        omega
      rw [hdrop]
      constructor
      · simp
      · intro i hi hilt
        omega
    · push_neg at hn
      have hsplit : (List.range (n + 1)).drop 5 = (List.range n).drop 5 ++ [n] := by
        rw [List.range_succ, List.drop_append_of_le_length (by simp; omega)]
      rw [hsplit, List.foldl_append, List.foldl_cons, List.foldl_nil]
      set acc := ((List.range n).drop 5).foldl (peakStep s) (0, 0) with hacc
      rcases ih with ⟨heq, hle⟩ | ⟨hpos, hp5, hplt, hval, hmax, hstrict⟩
      · rw [heq]
        by_cases hgt : s.getD n 0 > (0 : ℝ)
        · right
          rw [peakStep, if_pos (by simpa using hgt)]
          refine ⟨hgt, hn, Nat.lt_succ_self n, rfl, ?_, ?_⟩
          · intro i hi hilt
            rcases Nat.lt_succ_iff_lt_or_eq.mp hilt with h | h
            · exact le_of_lt (lt_of_le_of_lt (hle i hi h) hgt)
            · subst h; exact le_refl _
          · intro i hi hilt
            exact lt_of_le_of_lt (hle i hi hilt) hgt
        · left
          push_neg at hgt
          rw [peakStep, if_neg (by simpa using hgt)]
          refine ⟨rfl, ?_⟩
          intro i hi hilt
          rcases Nat.lt_succ_iff_lt_or_eq.mp hilt with h | h
          · exact hle i hi h
          · subst h; exact hgt
      · by_cases hgt : s.getD n 0 > acc.1
        · right
          rw [peakStep, if_pos hgt]
          refine ⟨lt_trans hpos hgt, hn, Nat.lt_succ_self n, rfl, ?_, ?_⟩
          · intro i hi hilt
            rcases Nat.lt_succ_iff_lt_or_eq.mp hilt with h | h
            · exact le_of_lt (lt_of_le_of_lt (hmax i hi h) hgt)
            · subst h; exact le_refl _
          · intro i hi hilt
            exact lt_of_le_of_lt (hmax i hi hilt) hgt
        · right
          push_neg at hgt
          rw [peakStep, if_neg (by simpa using not_lt.mpr hgt)]
          refine ⟨hpos, hp5, Nat.lt_succ_of_lt hplt, hval, ?_, hstrict⟩
          intro i hi hilt
          rcases Nat.lt_succ_iff_lt_or_eq.mp hilt with h | h
          · exact hmax i hi h
          · subst h; exact hgt

/-- C5: the peak scan returns the left-most index i ≥ 5 attaining the
maximum of the spectrum over indices ≥ 5 when that maximum is positive,
and the sentinel 0 when the spectrum has no bins at index 5 or beyond or
all such values are ≤ 0. -/
theorem findDominantFrequency_spec (s : List ℝ) :
    (findDominantFrequency s = 0 ∧ ∀ i, 5 ≤ i → i < s.length → s.getD i 0 ≤ 0) ∨
    (5 ≤ findDominantFrequency s ∧ findDominantFrequency s < s.length ∧
      0 < s.getD (findDominantFrequency s) 0 ∧
      (∀ i, 5 ≤ i → i < s.length →
        s.getD i 0 ≤ s.getD (findDominantFrequency s) 0) ∧
      ∀ i, 5 ≤ i → i < findDominantFrequency s →
        s.getD i 0 < s.getD (findDominantFrequency s) 0) := by
  rcases peakScan_invariant s s.length with ⟨heq, hle⟩ | ⟨hpos, hp5, hplt, hval, hmax, hstrict⟩
  · left
    exact ⟨by rw [findDominantFrequency, heq], hle⟩
  · right
    rw [findDominantFrequency]
    rw [← hval] at hpos hmax hstrict
    exact ⟨hp5, hplt, hpos, hmax, hstrict⟩

/-- When the smoothed spectrum has at most 5 bins the scan body never
runs and the sentinel 0 is returned (used for C9 and C10). -/
lemma findDominantFrequency_eq_zero_of_short (s : List ℝ) (h : s.length ≤ 5) :
    findDominantFrequency s = 0 := by
  rw [findDominantFrequency, List.drop_eq_nil_of_le (by simpa using h)]
  rfl


/-! ## Gaussian smoothing (useImageAnalysis.ts, lines 290-328)

The source builds an odd-sized kernel of Math.exp weights, normalizes it
to sum 1, and convolves, simply omitting out-of-range indices from the
sum (no renormalization at the boundary).  Floating point is idealized
as real arithmetic. -/

/-- Raw kernel weight at position t (the source's exp(-(i*i)/(2*sigma*sigma))
with i = t - radius, radius = size / 2). -/
noncomputable def gaussRaw (sigma : ℝ) (size t : Nat) : ℝ :=
  Real.exp (-(((t : ℝ) - ((size / 2 : Nat) : ℝ)) * ((t : ℝ) - ((size / 2 : Nat) : ℝ))) /
    (2 * sigma * sigma))

/-- The normalized Gaussian kernel: the raw weights divided by their sum. -/
noncomputable def gaussianKernel (sigma : ℝ) (size : Nat) : List ℝ :=
  ((List.range size).map (gaussRaw sigma size)).map
    (fun v => v / ((List.range size).map (gaussRaw sigma size)).sum)

/-- The smoothing convolution: result[i] sums data[i + t - radius] * kernel[t]
over the kernel positions t whose data index is in range (an even requested
kernel size is first bumped to the next odd size). -/
noncomputable def applyGaussianSmoothing (data : List ℝ) (sigma : ℝ) (kernelSize : Nat) :
    List ℝ :=
  let size := if kernelSize % 2 = 0 then kernelSize + 1 else kernelSize
  let radius := size / 2
  (List.range data.length).map fun (i : Nat) =>
    ((List.range size).map fun (t : Nat) =>
      if 0 ≤ (i : Int) + (t : Int) - (radius : Int) ∧
          (i : Int) + (t : Int) - (radius : Int) < (data.length : Int) then
        data.getD ((i : Int) + (t : Int) - (radius : Int)).toNat 0 *
          (gaussianKernel sigma size).getD t 0
      else 0).sum

lemma applyGaussianSmoothing_length (data : List ℝ) (sigma : ℝ) (kernelSize : Nat) :
    (applyGaussianSmoothing data sigma kernelSize).length = data.length := by
  simp [applyGaussianSmoothing]

lemma getD_map_range {α : Type} (f : Nat → α) (d : α) {n i : Nat} (h : i < n) :
    ((List.range n).map f).getD i d = f i := by
  rw [List.getD_eq_getElem?_getD, List.getElem?_map, List.getElem?_range h]
  rfl

lemma sum_getD_range (l : List ℝ) :
    ((List.range l.length).map fun t => l.getD t 0).sum = l.sum := by
  induction l with
  | nil => simp
  | cons a l ih =>
    rw [List.length_cons, List.range_succ_eq_map, List.map_cons, List.sum_cons, List.map_map]
    have hc : ((List.range l.length).map ((fun t => (a :: l).getD t 0) ∘ Nat.succ)) =
        (List.range l.length).map fun t => l.getD t 0 := by
      apply List.map_congr_left
      intro t _
      rfl
    rw [hc, ih]
    rfl

lemma gaussRaw_sum_pos (sigma : ℝ) (size : Nat) (hs : 1 ≤ size) :
    0 < ((List.range size).map (gaussRaw sigma size)).sum := by
  apply List.sum_pos
  · intro x hx
    rcases List.mem_map.mp hx with ⟨t, _, ht⟩
    rw [← ht]
    exact Real.exp_pos _
  · intro hnil
    have h0 := congrArg List.length hnil
    simp at h0
    omega

lemma gaussianKernel_length (sigma : ℝ) (size : Nat) :
    (gaussianKernel sigma size).length = size := by
  simp [gaussianKernel]

lemma gaussianKernel_sum (sigma : ℝ) (size : Nat) (hs : 1 ≤ size) :
    (gaussianKernel sigma size).sum = 1 := by
  rw [gaussianKernel]
  have hpos := gaussRaw_sum_pos sigma size hs
  set S := ((List.range size).map (gaussRaw sigma size)).sum with hS
  have hmap : ((List.range size).map (gaussRaw sigma size)).map (fun v => v / S) =
      ((List.range size).map (gaussRaw sigma size)).map (fun v => v * S⁻¹) := by
    apply List.map_congr_left
    intro v _
    exact div_eq_mul_inv v S
  rw [hmap, List.sum_map_mul_right]
  simp only [List.map_id']
  rw [← hS]
  exact mul_inv_cancel₀ (ne_of_gt hpos)

lemma applyGaussianSmoothing7_getD (data : List ℝ) (sigma : ℝ) {i : Nat}
    (hi : i < data.length) :
    (applyGaussianSmoothing data sigma 7).getD i 0 =
      ((List.range 7).map fun (t : Nat) =>
        if 0 ≤ (i : Int) + (t : Int) - 3 ∧ (i : Int) + (t : Int) - 3 < (data.length : Int) then
          data.getD ((i : Int) + (t : Int) - 3).toNat 0 * (gaussianKernel sigma 7).getD t 0
        else 0).sum := by
  rw [applyGaussianSmoothing]
  have h7 : (if (7 : Nat) % 2 = 0 then 7 + 1 else 7) = 7 := by norm_num
  simp only [h7]
  have hr : ((7 / 2 : Nat) : Int) = 3 := by norm_num
  simp only [hr]
  exact getD_map_range _ _ hi

lemma gaussRaw_center : gaussRaw 2 7 3 = 1 := by
  have h : ((7 / 2 : Nat) : ℝ) = 3 := by norm_num
  rw [gaussRaw, h]
  norm_num

lemma gaussRaw7_sum_gt_one : 1 < ((List.range 7).map (gaussRaw 2 7)).sum := by
  have hr7 : List.range 7 = [0, 1, 2, 3, 4, 5, 6] := by decide
  rw [hr7]
  simp only [List.map_cons, List.map_nil, List.sum_cons, List.sum_nil]
  have e0 := Real.exp_pos (-(((0 : ℝ) - ((7 / 2 : Nat) : ℝ)) * ((0 : ℝ) - ((7 / 2 : Nat) : ℝ))) /
    (2 * 2 * 2))
  have e1 := Real.exp_pos (-(((1 : ℝ) - ((7 / 2 : Nat) : ℝ)) * ((1 : ℝ) - ((7 / 2 : Nat) : ℝ))) /
    (2 * 2 * 2))
  have e2 := Real.exp_pos (-(((2 : ℝ) - ((7 / 2 : Nat) : ℝ)) * ((2 : ℝ) - ((7 / 2 : Nat) : ℝ))) /
    (2 * 2 * 2))
  have e4 := Real.exp_pos (-(((4 : ℝ) - ((7 / 2 : Nat) : ℝ)) * ((4 : ℝ) - ((7 / 2 : Nat) : ℝ))) /
    (2 * 2 * 2))
  have e5 := Real.exp_pos (-(((5 : ℝ) - ((7 / 2 : Nat) : ℝ)) * ((5 : ℝ) - ((7 / 2 : Nat) : ℝ))) /
    (2 * 2 * 2))
  have e6 := Real.exp_pos (-(((6 : ℝ) - ((7 / 2 : Nat) : ℝ)) * ((6 : ℝ) - ((7 / 2 : Nat) : ℝ))) /
    (2 * 2 * 2))
  have h3 := gaussRaw_center
  rw [gaussRaw] at h3
  simp only [gaussRaw]
  push_cast
  push_cast at h3
  rw [h3]
  linarith

lemma gaussianKernel7_getD3 :
    (gaussianKernel 2 7).getD 3 0 = 1 / ((List.range 7).map (gaussRaw 2 7)).sum := by
  rw [gaussianKernel, List.map_map]
  rw [getD_map_range _ _ (by norm_num : (3 : Nat) < 7)]
  simp only [Function.comp]
  rw [gaussRaw_center]

/-- CE for C2: smoothing the constant array [1] (length 1) with sigma 2 and
kernel size 7 does not return [1]: only the central kernel position hits an
in-range index, so the single output entry is the normalized central weight
1 / (sum of the seven raw weights) < 1.  This refutes the part of the claim
that says boundary elements of a constant array are preserved. -/
theorem applyGaussianSmoothing_const_counterexample :
    applyGaussianSmoothing [(1 : ℝ)] 2 7 ≠ [(1 : ℝ)] := by
  have hgt := gaussRaw7_sum_gt_one
  have hval : (applyGaussianSmoothing [(1 : ℝ)] 2 7).getD 0 0 =
      (gaussianKernel 2 7).getD 3 0 := by
    rw [applyGaussianSmoothing7_getD [(1 : ℝ)] 2 (by norm_num)]
    have hr7 : List.range 7 = [0, 1, 2, 3, 4, 5, 6] := by decide
    rw [hr7]
    simp only [List.map_cons, List.map_nil, List.sum_cons, List.sum_nil]
    norm_num
  intro heq
  rw [heq] at hval
  have h1 : (1 : ℝ) = (gaussianKernel 2 7).getD 3 0 := hval
  rw [gaussianKernel7_getD3] at h1
  have hne : ((List.range 7).map (gaussRaw 2 7)).sum ≠ 0 := by linarith
  rw [eq_div_iff hne, one_mul] at h1
  linarith

/-- C2 (amended): with sigma 2 and kernel size 7 the smoother returns an
array of the same length for every input of length ≥ 1, and on a
constant-valued array every output element whose full kernel window is in
range (3 ≤ i and i + 3 < length) equals the constant.  Boundary elements
are un-renormalized partial sums and are not preserved in general (see the
counterexample). -/
theorem applyGaussianSmoothing_const_interior (data : List ℝ) (c : ℝ)
    (hlen : 1 ≤ data.length) (hc : ∀ x ∈ data, x = c) :
    (applyGaussianSmoothing data 2 7).length = data.length ∧
    ∀ i, 3 ≤ i → i + 3 < data.length →
      (applyGaussianSmoothing data 2 7).getD i 0 = c := by
  refine ⟨applyGaussianSmoothing_length data 2 7, ?_⟩
  intro i h3 hi7
  have hi : i < data.length := by omega
  rw [applyGaussianSmoothing7_getD data 2 hi]
  have hcongr : ((List.range 7).map fun (t : Nat) =>
      if 0 ≤ (i : Int) + (t : Int) - 3 ∧ (i : Int) + (t : Int) - 3 < (data.length : Int) then
        data.getD ((i : Int) + (t : Int) - 3).toNat 0 * (gaussianKernel 2 7).getD t 0
      else 0) =
      (List.range 7).map fun (t : Nat) => c * (gaussianKernel 2 7).getD t 0 := by
    apply List.map_congr_left
    intro t ht
    have ht7 : t < 7 := List.mem_range.mp ht
    have hcond : 0 ≤ (i : Int) + (t : Int) - 3 ∧
        (i : Int) + (t : Int) - 3 < (data.length : Int) := by
      constructor <;> [omega; (push_cast; omega)]
    rw [if_pos hcond]
    have htoNat : ((i : Int) + (t : Int) - 3).toNat = i + t - 3 := by omega
    have hidx : i + t - 3 < data.length := by omega
    rw [htoNat]
    rw [List.getD_eq_getElem data 0 hidx]
    rw [hc _ (List.getElem_mem hidx)]
  rw [hcongr, List.sum_map_mul_left]
  set K := gaussianKernel 2 7 with hK
  have h7 : (7 : Nat) = K.length := by rw [hK, gaussianKernel_length]
  rw [h7, sum_getD_range, hK, gaussianKernel_sum 2 7 (by norm_num), mul_one]

/-- Witness for the amended C2: a constant array of sevens of length 7 keeps
its length and its central element. -/
theorem applyGaussianSmoothing_const_interior_witness :
    (applyGaussianSmoothing (List.replicate 7 (2 : ℝ)) 2 7).length =
      (List.replicate 7 (2 : ℝ)).length ∧
    ∀ i, 3 ≤ i → i + 3 < (List.replicate 7 (2 : ℝ)).length →
      (applyGaussianSmoothing (List.replicate 7 (2 : ℝ)) 2 7).getD i 0 = 2 :=
  applyGaussianSmoothing_const_interior (List.replicate 7 (2 : ℝ)) 2 (by simp)
    (fun x hx => List.eq_of_mem_replicate hx)

/-! ## Grid sampling (useImageAnalysis.ts, lines 331-397, and the same loop
in ImageFFTAnalyzer.tsx, lines 217-292)

The source derives pixelSpacing = imgHeight / frequency, estimates the
reconstructed dimensions with Math.round, and samples the floor of the
center of every grid cell, skipping cells whose center falls outside the
image.  Math.round on the non-negative values that occur here agrees with
Mathlib's round (both are floor(x + 1/2)). -/

/-- One sampled pixel: its source coordinates and its RGBA color. -/
structure PixelSample where
  x : Nat
  y : Nat
  color : RGBA
deriving DecidableEq, Repr

/-- Math.round(dim / pixelSpacing) as a natural number. -/
def estimatedDim (dim : Nat) (pixelSpacing : ℚ) : Nat :=
  (round ((dim : ℚ) / pixelSpacing)).toNat

/-- The sample list of generatePixelSamples: empty when frequency ≤ 0
(the early return), otherwise one sample per grid cell whose center is in
bounds, in row-major order. -/
def generatePixelSamples (frequency : ℚ) (w h : Nat) (d : List Nat) : List PixelSample :=
  if frequency ≤ 0 then []
  else
    let pixelSpacing : ℚ := (h : ℚ) / frequency
    (List.range (estimatedDim h pixelSpacing)).flatMap fun (gridY : Nat) =>
      (List.range (estimatedDim w pixelSpacing)).filterMap fun (gridX : Nat) =>
        let centerX := ⌊((gridX : ℚ) + 1/2) * pixelSpacing⌋
        let centerY := ⌊((gridY : ℚ) + 1/2) * pixelSpacing⌋
        if centerX < (w : Int) ∧ centerY < (h : Int) then
          some ⟨centerX.toNat, centerY.toNat, pixelAt w d centerX.toNat centerY.toNat⟩
        else none

/-- Pixel (gridX, gridY) of the reconstructed pixel-art image: the canvas
starts cleared (transparent black) and the sample at row-major index
gridY * estimatedWidth + gridX paints it when that index exists
(ImageFFTAnalyzer.tsx, lines 272-288). -/
def reconstructPixel (samples : List PixelSample) (estimatedWidth gridX gridY : Nat) : RGBA :=
  if gridY * estimatedWidth + gridX < samples.length then
    (samples.getD (gridY * estimatedWidth + gridX) ⟨0, 0, ⟨0, 0, 0, 0⟩⟩).color
  else ⟨0, 0, 0, 0⟩

lemma floor_half_add_nat (n : Nat) : ⌊((n : ℚ) + 1 / 2)⌋ = n := by
  rw [add_comm, Int.floor_add_nat, Int.floor_eq_zero_iff.mpr (by norm_num), zero_add]

lemma getD_flatMap_grid {α : Type} (g : Nat → Nat → α) (w : Nat) (dflt : α) :
    ∀ (h x y : Nat), x < w → y < h →
    (((List.range h).flatMap fun gy => (List.range w).map fun gx => g gx gy).getD
      (y * w + x) dflt) = g x y := by
  intro h
  induction h with
  | zero => intro x y _ hy; omega
  | succ n ih =>
    intro x y hx hy
    rw [List.range_succ, List.flatMap_append]
    have hlen : ((List.range n).flatMap fun gy => (List.range w).map fun gx => g gx gy).length =
        n * w := by
      rw [List.length_flatMap]
      simp only [Function.comp_def]
      have : ((List.range n).map fun gy =>
          ((List.range w).map fun gx => g gx gy).length) = List.replicate n w := by
        rw [List.eq_replicate_iff]
        constructor
        · simp
        · intro b hb
          rcases List.mem_map.mp hb with ⟨gy, _, hgy⟩
          simp at hgy
          omega
      rw [this, List.sum_replicate, smul_eq_mul]
    rcases Nat.lt_or_ge y n with hyn | hyn
    · rw [List.getD_append _ _ _ _ (by rw [hlen]; calc
        y * w + x < y * w + w := by omega
        _ = (y + 1) * w := by ring
        _ ≤ n * w := Nat.mul_le_mul_right w hyn)]
      exact ih x y hx hyn
    · have hyeq : y = n := by omega
      subst hyeq
      rw [List.getD_append_right _ _ _ _ (by rw [hlen]; omega)]
      rw [hlen]
      have hix : y * w + x - y * w = x := by omega
      rw [hix, List.flatMap_singleton]
      exact getD_map_range _ _ hx

lemma length_flatMap_grid {α : Type} (g : Nat → Nat → α) (w h : Nat) :
    ((List.range h).flatMap fun gy => (List.range w).map fun gx => g gx gy).length = h * w := by
  rw [List.length_flatMap]
  simp only [Function.comp_def]
  have : ((List.range h).map fun gy => ((List.range w).map fun gx => g gx gy).length) =
      List.replicate h w := by
    rw [List.eq_replicate_iff]
    constructor
    · simp
    · intro b hb
      rcases List.mem_map.mp hb with ⟨gy, _, hgy⟩
      simp at hgy
      omega
  rw [this, List.sum_replicate, smul_eq_mul]

lemma filterMap_eq_map_of_some {α β : Type} (f : α → Option β) (g : α → β) :
    ∀ l : List α, (∀ a ∈ l, f a = some (g a)) → l.filterMap f = l.map g := by
  intro l hl
  induction l with
  | nil => rfl
  | cons a l ih =>
    rw [List.filterMap_cons, hl a (List.mem_cons_self a l), List.map_cons,
      ih fun b hb => hl b (List.mem_cons_of_mem a hb)]

lemma flatMap_congr_left {α β : Type} (f g : α → List β) :
    ∀ l : List α, (∀ a ∈ l, f a = g a) → l.flatMap f = l.flatMap g := by
  intro l hl
  induction l with
  | nil => rfl
  | cons a l ih =>
    rw [List.flatMap_cons, List.flatMap_cons, hl a (List.mem_cons_self a l),
      ih fun b hb => hl b (List.mem_cons_of_mem a hb)]

lemma estimatedDim_one (dim : Nat) : estimatedDim dim 1 = dim := by
  rw [estimatedDim, div_one, round_natCast, Int.toNat_natCast]

lemma generatePixelSamples_pitch_one (w h : Nat) (d : List Nat) (hw : 1 ≤ w) (hh : 1 ≤ h) :
    generatePixelSamples (h : ℚ) w h d =
      (List.range h).flatMap fun gy => (List.range w).map fun gx =>
        (⟨gx, gy, pixelAt w d gx gy⟩ : PixelSample) := by
  have hfreq : ¬ ((h : ℚ) ≤ 0) := by
    push_neg
    exact_mod_cast Nat.pos_of_ne_zero (by omega)
  have hspacing : (h : ℚ) / (h : ℚ) = 1 :=
    div_self (Nat.cast_ne_zero.mpr (by omega))
  rw [generatePixelSamples, if_neg hfreq]
  simp only [hspacing, estimatedDim_one]
  apply flatMap_congr_left
  intro gy hgy
  have hgyh : gy < h := List.mem_range.mp hgy
  apply filterMap_eq_map_of_some
  intro gx hgx
  have hgxw : gx < w := List.mem_range.mp hgx
  have hcx : ⌊((gx : ℚ) + 1 / 2) * 1⌋ = (gx : Int) := by rw [mul_one, floor_half_add_nat]
  have hcy : ⌊((gy : ℚ) + 1 / 2) * 1⌋ = (gy : Int) := by rw [mul_one, floor_half_add_nat]
  simp only [hcx, hcy]
  rw [if_pos ⟨by exact_mod_cast hgxw, by exact_mod_cast hgyh⟩]
  simp [Int.toNat_natCast]

/-- C3: grid sampling with pitch 1 (the frequency equals the image height,
so pixelSpacing = 1, with the loop's zero offset) reconstructs the source
image identically: the estimated dimensions equal the source dimensions,
every grid cell yields a sample, and the reconstructed pixel at each
(x, y) is the source pixel at (x, y). -/
theorem gridSampler_identity (w h : Nat) (d : List Nat) (hw : 1 ≤ w) (hh : 1 ≤ h) :
    estimatedDim w ((h : ℚ) / (h : ℚ)) = w ∧
    estimatedDim h ((h : ℚ) / (h : ℚ)) = h ∧
    (generatePixelSamples (h : ℚ) w h d).length = h * w ∧
    ∀ x y, x < w → y < h →
      reconstructPixel (generatePixelSamples (h : ℚ) w h d) w x y = pixelAt w d x y := by
  have hspacing : (h : ℚ) / (h : ℚ) = 1 :=
    div_self (Nat.cast_ne_zero.mpr (by omega))
  have hsamples := generatePixelSamples_pitch_one w h d hw hh
  have hlen : (generatePixelSamples (h : ℚ) w h d).length = h * w := by
    rw [hsamples]
    exact length_flatMap_grid _ w h
  refine ⟨by rw [hspacing, estimatedDim_one], by rw [hspacing, estimatedDim_one], hlen, ?_⟩
  intro x y hx hy
  rw [reconstructPixel, if_pos (by rw [hlen]; calc
    y * w + x < y * w + w := by omega
    _ = (y + 1) * w := by ring
    _ ≤ h * w := Nat.mul_le_mul_right w hy)]
  rw [hsamples, getD_flatMap_grid _ w _ h x y hx hy]

/-- Witness for C3 on a concrete 2-by-2 image. -/
theorem gridSampler_identity_witness :
    estimatedDim 2 ((2 : ℚ) / (2 : ℚ)) = 2 ∧
    estimatedDim 2 ((2 : ℚ) / (2 : ℚ)) = 2 ∧
    (generatePixelSamples (2 : ℚ) 2 2 (List.range 16)).length = 2 * 2 ∧
    ∀ x y, x < 2 → y < 2 →
      reconstructPixel (generatePixelSamples (2 : ℚ) 2 2 (List.range 16)) 2 x y =
        pixelAt 2 (List.range 16) x y := by
  have := gridSampler_identity 2 2 (List.range 16) (by decide) (by decide)
  exact_mod_cast this

/-! ## Line signals, aggregation and the performFFT pipeline
(useImageAnalysis.ts, lines 136-287)

performFFT selects random columns, builds each column's grayscale and
absolute-derivative signals, applies the mathjs FFT and takes magnitudes
(modelled by the opaque parameter F), sums the magnitude arrays into a
combined spectrum of clamped length, smooths it, scans for the peak, and
calls generatePixelSamples only when the peak is positive.  The early
returns (no lines, all magnitude arrays empty) are the none cases. -/

/-- The grayscale (mean of R, G and B, alpha ignored) column x, one value
per row. -/
def lineGray (h w : Nat) (d : List Nat) (x : Nat) : List ℚ :=
  (List.range h).map fun (y : Nat) =>
    ((d.getD (pixelStart w x y) 0 : ℚ) + (d.getD (pixelStart w x y + 1) 0 : ℚ) +
      (d.getD (pixelStart w x y + 2) 0 : ℚ)) / 3

/-- The absolute first-difference signal |line[i] - line[i-1]| for i in
[1, length), reindexed from 0. -/
def lineDerivatives (l : List ℚ) : List ℚ :=
  (List.range (l.length - 1)).map fun (i : Nat) => |l.getD (i + 1) 0 - l.getD i 0|

/-- The per-line magnitude arrays: the external transform and magnitude
computation F (math.fft plus sqrt(re*re+im*im)) applied to every selected
line's derivative signal. -/
def allMagnitudes (F : List ℚ → List ℝ) (s : Nat → Nat) (fuel w h : Nat) (d : List Nat) :
    List (List ℝ) :=
  (selectLines w s fuel).map fun x => F (lineDerivatives (lineGray h w d x))

/-- Math.max(...magnitudeLengths): the largest observed magnitude-array
length (0 when no line survived). -/
def observedMaxLen (F : List ℚ → List ℝ) (s : Nat → Nat) (fuel w h : Nat) (d : List Nat) :
    Nat :=
  ((allMagnitudes F s fuel w h d).map List.length).foldr max 0

/-- safeMaxFreq of performFFT: max(1, min(maxLength, floor(height / 2)))
additionally clamped to 10000. -/
def combinedLength (F : List ℚ → List ℝ) (s : Nat → Nat) (fuel w h : Nat) (d : List Nat) :
    Nat :=
  min (max 1 (min (observedMaxLen F s fuel w h d) (h / 2))) 10000

/-- The combined spectrum: entry i sums magnitudes[i] over all lines,
lines shorter than i contributing nothing. -/
noncomputable def combinedFFT (F : List ℚ → List ℝ) (s : Nat → Nat) (fuel w h : Nat)
    (d : List Nat) : List ℝ :=
  (List.range (combinedLength F s fuel w h d)).map fun (i : Nat) =>
    ((allMagnitudes F s fuel w h d).map fun m => m.getD i 0).sum

/-- The Gaussian-smoothed combined spectrum (sigma 2, kernel size 7). -/
noncomputable def smoothedFFT (F : List ℚ → List ℝ) (s : Nat → Nat) (fuel w h : Nat)
    (d : List Nat) : List ℝ :=
  applyGaussianSmoothing (combinedFFT F s fuel w h d) 2 7

/-- The dominant frequency of the pipeline: the peak scan over the
smoothed spectrum. -/
noncomputable def peakFrequency (F : List ℚ → List ℝ) (s : Nat → Nat) (fuel w h : Nat)
    (d : List Nat) : Nat :=
  findDominantFrequency (smoothedFFT F s fuel w h d)

/-- The outputs performFFT publishes (the set-state calls of the source). -/
structure FFTOutcome where
  selectedLines : List Nat
  combinedFFT : List ℝ
  smoothedFFT : List ℝ
  dominantFrequency : Nat
  pixelSamples : Option (List PixelSample)

/-- performFFT: none models the early returns (no line sampled, or every
magnitude array empty); otherwise all published outputs, the sampler
being invoked only when the peak is positive. -/
noncomputable def performFFT (F : List ℚ → List ℝ) (s : Nat → Nat) (fuel w h : Nat)
    (d : List Nat) : Option FFTOutcome :=
  if (allMagnitudes F s fuel w h d).length = 0 then none
  else if observedMaxLen F s fuel w h d = 0 then none
  else some
    { selectedLines := selectLines w s fuel
      combinedFFT := combinedFFT F s fuel w h d
      smoothedFFT := smoothedFFT F s fuel w h d
      dominantFrequency := peakFrequency F s fuel w h d
      pixelSamples :=
        if 0 < peakFrequency F s fuel w h d then
          some (generatePixelSamples ((peakFrequency F s fuel w h d : Nat) : ℚ) w h d)
        else none }

lemma lineGray_length (h w : Nat) (d : List Nat) (x : Nat) :
    (lineGray h w d x).length = h := by
  simp [lineGray]

lemma lineDerivatives_length (l : List ℚ) :
    (lineDerivatives l).length = l.length - 1 := by
  simp [lineDerivatives]

lemma combinedFFT_length (F : List ℚ → List ℝ) (s : Nat → Nat) (fuel w h : Nat)
    (d : List Nat) :
    (combinedFFT F s fuel w h d).length = combinedLength F s fuel w h d := by
  simp [combinedFFT]

lemma foldr_max_const (c : Nat) :
    ∀ l : List Nat, (∀ x ∈ l, x = c) → l.foldr max 0 = 0 ∨ l.foldr max 0 = c := by
  intro l hl
  induction l with
  | nil => left; rfl
  | cons a l ih =>
    rcases ih (fun x hx => hl x (List.mem_cons_of_mem a hx)) with h0 | hc
    · right
      rw [List.foldr_cons, h0, hl a (List.mem_cons_self a l)]
      omega
    · right
      rw [List.foldr_cons, hc, hl a (List.mem_cons_self a l)]
      omega

lemma observedMaxLen_cases (F : List ℚ → List ℝ) (s : Nat → Nat) (fuel w h : Nat)
    (d : List Nat) (hF : ∀ l, (F l).length = l.length) :
    observedMaxLen F s fuel w h d = 0 ∨ observedMaxLen F s fuel w h d = h - 1 := by
  apply foldr_max_const
  intro x hx
  rcases List.mem_map.mp hx with ⟨m, hm, hlen⟩
  rcases List.mem_map.mp hm with ⟨col, _, hcol⟩
  rw [← hlen, ← hcol, hF, lineDerivatives_length, lineGray_length]

attribute [irreducible] peakStep findDominantFrequency gaussRaw gaussianKernel
  applyGaussianSmoothing combinedFFT smoothedFFT peakFrequency

/-- C4: whenever aggregation succeeds (at least one line has a non-empty
magnitude array) the combined spectrum of performFFT has length
min(max(1, min(maxObservedLen, floor(h/2))), 10000), and that length lies
between 1 and min(maxObservedLen, floor(h/2)).  The hypothesis on F is
the length preservation of the external transform (spec section 4.2). -/
theorem combinedFFT_length_spec (F : List ℚ → List ℝ) (s : Nat → Nat) (fuel w h : Nat)
    (d : List Nat) (hF : ∀ l, (F l).length = l.length)
    (hOK : 1 ≤ observedMaxLen F s fuel w h d) :
    (combinedFFT F s fuel w h d).length =
      min (max 1 (min (observedMaxLen F s fuel w h d) (h / 2))) 10000 ∧
    1 ≤ (combinedFFT F s fuel w h d).length ∧
    (combinedFFT F s fuel w h d).length ≤ min (observedMaxLen F s fuel w h d) (h / 2) ∧
    ∀ out, performFFT F s fuel w h d = some out →
      out.combinedFFT = combinedFFT F s fuel w h d := by
  have hcases := observedMaxLen_cases F s fuel w h d hF
  have hmax : observedMaxLen F s fuel w h d = h - 1 := by omega
  have hh2 : 2 ≤ h := by omega
  refine ⟨combinedFFT_length F s fuel w h d, ?_, ?_, ?_⟩
  · rw [combinedFFT_length, combinedLength]
    omega
  · rw [combinedFFT_length, combinedLength]
    rw [hmax]
    have : h - 1 ≥ 1 := by omega
    have : h / 2 ≥ 1 := by omega
    omega
  · intro out hout
    rw [performFFT] at hout
    split_ifs at hout <;> injection hout with hout <;> rw [← hout]

/-- Witness for C4 on a 1-by-4 all-black image with a single selected
line and the cast-to-real transform (which preserves length). -/
theorem combinedFFT_length_witness :
    (combinedFFT (fun l => l.map fun (q : ℚ) => (q : ℝ)) (fun _ => 0) 1 1 4
        (List.replicate 16 0)).length =
      min (max 1 (min (observedMaxLen (fun l => l.map fun (q : ℚ) => (q : ℝ)) (fun _ => 0) 1 1 4
        (List.replicate 16 0)) (4 / 2))) 10000 ∧
    1 ≤ (combinedFFT (fun l => l.map fun (q : ℚ) => (q : ℝ)) (fun _ => 0) 1 1 4
        (List.replicate 16 0)).length ∧
    (combinedFFT (fun l => l.map fun (q : ℚ) => (q : ℝ)) (fun _ => 0) 1 1 4
        (List.replicate 16 0)).length ≤
      min (observedMaxLen (fun l => l.map fun (q : ℚ) => (q : ℝ)) (fun _ => 0) 1 1 4
        (List.replicate 16 0)) (4 / 2) ∧
    ∀ out, performFFT (fun l => l.map fun (q : ℚ) => (q : ℝ)) (fun _ => 0) 1 1 4
        (List.replicate 16 0) = some out →
      out.combinedFFT = combinedFFT (fun l => l.map fun (q : ℚ) => (q : ℝ)) (fun _ => 0) 1 1 4
        (List.replicate 16 0) := by
  apply combinedFFT_length_spec
  · intro l
    simp
  · have hsel : selectLines 1 (fun _ => 0) 1 = [0] := by decide
    rw [observedMaxLen, allMagnitudes, hsel]
    simp [lineDerivatives_length, lineGray_length]

/-- C10: when floor(height / 2) ≤ 5 (height at most 11) the combined
spectrum is clamped to at most 5 bins, the peak scan starting at bin 5
examines nothing, and the pipeline dominant frequency is the sentinel 0
regardless of image content. -/
theorem peakFrequency_zero_of_short_image (F : List ℚ → List ℝ) (s : Nat → Nat)
    (fuel w h : Nat) (d : List Nat) (hh : h / 2 ≤ 5) :
    peakFrequency F s fuel w h d = 0 ∧
    ∀ out, performFFT F s fuel w h d = some out → out.dominantFrequency = 0 := by
  have hlen : (smoothedFFT F s fuel w h d).length ≤ 5 := by
    rw [smoothedFFT, applyGaussianSmoothing_length, combinedFFT_length, combinedLength]
    omega
  have hpeak : peakFrequency F s fuel w h d = 0 := by
    rw [peakFrequency]
    exact findDominantFrequency_eq_zero_of_short _ hlen
  refine ⟨hpeak, ?_⟩
  intro out hout
  rw [performFFT] at hout
  split_ifs at hout <;> injection hout with hout <;> rw [← hout] <;> exact hpeak

/-- Witness for C10 at height 11. -/
theorem peakFrequency_zero_witness :
    peakFrequency (fun _ => ([] : List ℝ)) (fun _ => 0) 0 1 11 [] = 0 ∧
    ∀ out, performFFT (fun _ => ([] : List ℝ)) (fun _ => 0) 0 1 11 [] = some out →
      out.dominantFrequency = 0 :=
  peakFrequency_zero_of_short_image (fun _ => ([] : List ℝ)) (fun _ => 0) 0 1 11 []
    (by decide)

/-- C9: a sentinel peak produces no samples.  performFFT stores a sampler
result only when the dominant frequency is positive, and
generatePixelSamples itself returns the empty list (its early return,
not a crash) whenever invoked with frequency ≤ 0. -/
theorem noPeak_noSamples (F : List ℚ → List ℝ) (s : Nat → Nat) (fuel w h : Nat)
    (d : List Nat) :
    (∀ out, performFFT F s fuel w h d = some out →
      out.dominantFrequency = 0 → out.pixelSamples = none) ∧
    ∀ (q : ℚ) (w2 h2 : Nat) (d2 : List Nat), q ≤ 0 →
      generatePixelSamples q w2 h2 d2 = [] := by
  constructor
  · intro out hout hzero
    rw [performFFT] at hout
    split_ifs at hout with hg1 hg2 hpk
    · injection hout with hout
      rw [← hout] at hzero
      have hz : peakFrequency F s fuel w h d = 0 := hzero
      rw [hz] at hpk
      exact absurd hpk (by omega)
    · injection hout with hout
      rw [← hout]
  · intro q w2 h2 d2 hq
    rw [generatePixelSamples, if_pos hq]

/-! ## Color histogram (ImageFFTAnalyzer.tsx, lines 342-381)

The source iterates the reconstructed buffer four bytes at a time, skips
fully transparent pixels, keys entries by the hex string of (r, g, b)
(which, for byte values, encodes exactly that triple), counts, and sorts
by count descending. -/

/-- One histogram entry: the RGB key (the triple the hex string #rrggbb
encodes), its count, and the first-encountered RGBA representative. -/
structure ColorCount where
  key : Nat × Nat × Nat
  count : Nat
  rgba : RGBA
deriving DecidableEq, Repr

/-- The color key of a pixel: its RGB triple, alpha excluded. -/
def rgbKey (p : RGBA) : Nat × Nat × Nat := (p.r, p.g, p.b)

/-- The pixels of a buffer, four bytes at a time (the source loop
for (i = 0; i < data.length; i += 4)). -/
def pixelsOf (d : List Nat) : List RGBA :=
  (List.range (d.length / 4)).map fun i =>
    ⟨d.getD (4 * i) 0, d.getD (4 * i + 1) 0, d.getD (4 * i + 2) 0, d.getD (4 * i + 3) 0⟩

/-- Processing one pixel: a fully transparent pixel is skipped; an existing
entry with the pixel's key is incremented; otherwise a new entry with
count 1 and this pixel as representative is appended. -/
def histInsert (acc : List ColorCount) (p : RGBA) : List ColorCount :=
  if p.a = 0 then acc
  else if acc.any fun c => c.key = rgbKey p then
    acc.map fun c => if c.key = rgbKey p then ⟨c.key, c.count + 1, c.rgba⟩ else c
  else acc ++ [⟨rgbKey p, 1, p⟩]

/-- The histogram: every pixel processed in order, then sorted by count
descending (the source comparator (a, b) => b.count - a.count). -/
def generateColorHistogram (d : List Nat) : List ColorCount :=
  ((pixelsOf d).foldl histInsert []).mergeSort fun a b => b.count ≤ a.count

/-- The total count a key holds in an accumulator. -/
def keyCount (acc : List ColorCount) (k : Nat × Nat × Nat) : Nat :=
  ((acc.filter fun c => c.key = k).map fun c => c.count).sum

lemma histInsert_keys_nodup (acc : List ColorCount) (p : RGBA)
    (hnd : (acc.map fun c => c.key).Nodup) :
    ((histInsert acc p).map fun c => c.key).Nodup := by
  rw [histInsert]
  split_ifs with ha hfound
  · exact hnd
  · have : ((acc.map fun c => if c.key = rgbKey p then
        (⟨c.key, c.count + 1, c.rgba⟩ : ColorCount) else c).map fun c => c.key) =
        acc.map fun c => c.key := by
      rw [List.map_map]
      apply List.map_congr_left
      intro c _
      by_cases h : c.key = rgbKey p <;> simp [h]
    rw [this]
    exact hnd
  · rw [List.map_append]
    have hnotin : rgbKey p ∉ acc.map fun c => c.key := by
      intro hmem
      rcases List.mem_map.mp hmem with ⟨c, hc, hck⟩
      rw [List.any_eq_true] at hfound
      push_neg at hfound
      exact hfound c hc (by simp [hck])
    simp only [List.map_cons, List.map_nil]
    rw [List.nodup_append]
    exact ⟨hnd, List.nodup_singleton _, by
      intro a ha1 hb1
      simp at hb1
      subst hb1
      exact hnotin ha1⟩

lemma keyCount_cons (c : ColorCount) (l : List ColorCount) (k : Nat × Nat × Nat) :
    keyCount (c :: l) k = (if c.key = k then c.count else 0) + keyCount l k := by
  rw [keyCount, keyCount]
  by_cases h : c.key = k
  · rw [List.filter_cons_of_pos (by simp [h]), List.map_cons, List.sum_cons, if_pos h]
  · rw [List.filter_cons_of_neg (by simp [h]), if_neg h, zero_add]

lemma keyCount_append (l1 l2 : List ColorCount) (k : Nat × Nat × Nat) :
    keyCount (l1 ++ l2) k = keyCount l1 k + keyCount l2 k := by
  simp [keyCount, List.filter_append]

lemma keyCount_bump (q k : Nat × Nat × Nat) :
    ∀ acc : List ColorCount,
    keyCount (acc.map fun c => if c.key = q then ⟨c.key, c.count + 1, c.rgba⟩ else c) k =
      keyCount acc k + (if q = k then (acc.filter fun c => c.key = q).length else 0) := by
  intro acc
  induction acc with
  | nil => by_cases hqk : q = k <;> simp [keyCount, hqk]
  | cons c l ih =>
    rw [List.map_cons, keyCount_cons, keyCount_cons, ih]
    by_cases hcq : c.key = q
    · rw [List.filter_cons_of_pos (by simp [hcq]), if_pos hcq, List.length_cons]
      by_cases hqk : q = k
      · have hck : c.key = k := by rw [hcq, hqk]
        simp only [hck, if_pos, hqk, if_true]
        omega
      · have hck : ¬ c.key = k := fun h => hqk (hcq ▸ h)
        simp only [hck, if_false, hqk]
        omega
    · rw [List.filter_cons_of_neg (by simp [hcq]), if_neg hcq]
      by_cases hqk : q = k <;> simp [hqk] <;> omega

lemma totalCount_bump (q : Nat × Nat × Nat) :
    ∀ acc : List ColorCount,
    ((acc.map fun c => if c.key = q then ⟨c.key, c.count + 1, c.rgba⟩ else c).map
      fun c => c.count).sum =
      (acc.map fun c => c.count).sum + (acc.filter fun c => c.key = q).length := by
  intro acc
  induction acc with
  | nil => simp
  | cons c l ih =>
    rw [List.map_cons, List.map_cons, List.sum_cons, List.map_cons, List.sum_cons, ih]
    by_cases hcq : c.key = q
    · rw [List.filter_cons_of_pos (by simp [hcq]), if_pos hcq, List.length_cons]
      simp only []
      omega
    · rw [List.filter_cons_of_neg (by simp [hcq]), if_neg hcq]
      omega

lemma filter_key_length_le_one (q : Nat × Nat × Nat) :
    ∀ acc : List ColorCount, ((acc.map fun c => c.key).Nodup) →
    (acc.filter fun c => c.key = q).length ≤ 1 := by
  intro acc
  induction acc with
  | nil => simp
  | cons c l ih =>
    intro hnd
    rw [List.map_cons, List.nodup_cons] at hnd
    by_cases h : c.key = q
    · rw [List.filter_cons_of_pos (by simp [h])]
      have hnil : (l.filter fun c2 => c2.key = q) = [] := by
        rw [List.eq_nil_iff_forall_not_mem]
        intro x hx
        have hx1 : x.key = q := of_decide_eq_true (List.mem_filter.mp hx).2
        apply hnd.1
        rw [List.mem_map]
        exact ⟨x, (List.mem_filter.mp hx).1, by rw [hx1, h]⟩
      rw [hnil]
      simp
    · rw [List.filter_cons_of_neg (by simp [h])]
      exact ih hnd.2

lemma filter_key_pos_of_any (acc : List ColorCount) (q : Nat × Nat × Nat)
    (h : (acc.any fun c => c.key = q) = true) :
    1 ≤ (acc.filter fun c => c.key = q).length := by
  rw [List.any_eq_true] at h
  rcases h with ⟨c, hc, hck⟩
  have hmem : c ∈ acc.filter fun c => c.key = q := List.mem_filter.mpr ⟨hc, hck⟩
  exact List.length_pos.mpr (List.ne_nil_of_mem hmem)

lemma histInsert_keyCount (acc : List ColorCount) (p : RGBA) (k : Nat × Nat × Nat)
    (hnd : (acc.map fun c => c.key).Nodup) :
    keyCount (histInsert acc p) k =
      keyCount acc k + (if p.a ≠ 0 ∧ rgbKey p = k then 1 else 0) := by
  by_cases ha : p.a = 0
  · rw [histInsert, if_pos ha, if_neg (fun hc => hc.1 ha)]
    omega
  · rw [histInsert, if_neg ha]
    by_cases hfound : (acc.any fun c => c.key = rgbKey p) = true
    · rw [if_pos hfound, keyCount_bump]
      have hlen : (acc.filter fun c => c.key = rgbKey p).length = 1 :=
        le_antisymm (filter_key_length_le_one (rgbKey p) acc hnd)
          (filter_key_pos_of_any acc (rgbKey p) hfound)
      rw [hlen]
      by_cases hk : rgbKey p = k
      · rw [if_pos hk, if_pos ⟨ha, hk⟩]
      · rw [if_neg hk, if_neg (fun hc => hk hc.2)]
    · rw [if_neg hfound, keyCount_append, keyCount_cons]
      by_cases hk : rgbKey p = k
      · rw [if_pos hk, if_pos ⟨ha, hk⟩]
        simp [keyCount]
      · rw [if_neg hk, if_neg (fun hc => hk hc.2)]
        simp [keyCount]

lemma histInsert_total (acc : List ColorCount) (p : RGBA)
    (hnd : (acc.map fun c => c.key).Nodup) :
    ((histInsert acc p).map fun c => c.count).sum =
      (acc.map fun c => c.count).sum + (if p.a ≠ 0 then 1 else 0) := by
  by_cases ha : p.a = 0
  · rw [histInsert, if_pos ha, if_neg (fun hc => hc ha)]
    omega
  · rw [histInsert, if_neg ha]
    rw [if_pos (show p.a ≠ 0 from ha)]
    by_cases hfound : (acc.any fun c => c.key = rgbKey p) = true
    · rw [if_pos hfound, totalCount_bump]
      have hlen : (acc.filter fun c => c.key = rgbKey p).length = 1 :=
        le_antisymm (filter_key_length_le_one (rgbKey p) acc hnd)
          (filter_key_pos_of_any acc (rgbKey p) hfound)
      rw [hlen]
    · rw [if_neg hfound]
      simp

lemma foldl_histInsert_spec :
    ∀ (l : List RGBA) (acc : List ColorCount),
    (acc.map fun c => c.key).Nodup →
    ((l.foldl histInsert acc).map fun c => c.key).Nodup ∧
    (∀ k, keyCount (l.foldl histInsert acc) k =
      keyCount acc k + (l.filter fun p => decide (p.a ≠ 0) && decide (rgbKey p = k)).length) ∧
    ((l.foldl histInsert acc).map fun c => c.count).sum =
      (acc.map fun c => c.count).sum + (l.filter fun p => p.a ≠ 0).length := by
  intro l
  induction l with
  | nil =>
    intro acc hnd
    exact ⟨hnd, fun k => by simp, by simp⟩
  | cons p l ih =>
    intro acc hnd
    rw [List.foldl_cons]
    obtain ⟨h1, h2, h3⟩ := ih (histInsert acc p) (histInsert_keys_nodup acc p hnd)
    refine ⟨h1, ?_, ?_⟩
    · intro k
      rw [h2 k, histInsert_keyCount acc p k hnd, List.filter_cons]
      by_cases hc : p.a ≠ 0 ∧ rgbKey p = k
      · rw [if_pos hc,
          if_pos (show (decide (p.a ≠ 0) && decide (rgbKey p = k)) = true by
            simp [hc.1, hc.2]),
          List.length_cons]
        omega
      · rw [if_neg hc,
          if_neg (show ¬ (decide (p.a ≠ 0) && decide (rgbKey p = k)) = true by
            simp only [Bool.and_eq_true, decide_eq_true_eq]
            exact fun hb => hc ⟨hb.1, hb.2⟩)]
        omega
    · rw [h3, histInsert_total acc p hnd, List.filter_cons]
      by_cases hc : p.a ≠ 0
      · rw [if_pos hc, if_pos (show decide (p.a ≠ 0) = true by simp [hc]), List.length_cons]
        omega
      · rw [if_neg hc, if_neg (show ¬ decide (p.a ≠ 0) = true by simp [hc])]
        omega

/-- C6: the histogram skips exactly the pixels with alpha 0: the entry
counts sum to the number of pixels with non-zero alpha; keys (the 24-bit
RGB triple, alpha excluded) are unique, so every non-transparent pixel
contributes to exactly one entry; and each entry counts exactly the
non-transparent pixels carrying its RGB triple. -/
theorem generateColorHistogram_spec (d : List Nat) :
    ((generateColorHistogram d).map fun c => c.count).sum =
      ((pixelsOf d).filter fun p => p.a ≠ 0).length ∧
    (∀ k, ((generateColorHistogram d).filter fun c => c.key = k).length ≤ 1) ∧
    ∀ e ∈ generateColorHistogram d,
      e.count = ((pixelsOf d).filter fun p =>
        decide (p.a ≠ 0) && decide (rgbKey p = e.key)).length := by
  obtain ⟨hnd, hkc, htot⟩ := foldl_histInsert_spec (pixelsOf d) [] (by simp)
  set H := (pixelsOf d).foldl histInsert [] with hH
  have hperm : List.Perm (generateColorHistogram d) H := List.mergeSort_perm _ _
  refine ⟨?_, ?_, ?_⟩
  · rw [(hperm.map fun c => c.count).sum_eq, htot]
    simp
  · intro k
    rw [(hperm.filter _).length_eq]
    exact filter_key_length_le_one k H hnd
  · intro e he
    have he2 : e ∈ H := hperm.mem_iff.mp he
    have hmem : e ∈ H.filter fun c => c.key = e.key :=
      List.mem_filter.mpr ⟨he2, by simp⟩
    have hge : 1 ≤ (H.filter fun c => c.key = e.key).length :=
      List.length_pos.mpr (List.ne_nil_of_mem hmem)
    have hlen1 : (H.filter fun c => c.key = e.key).length = 1 :=
      le_antisymm (filter_key_length_le_one e.key H hnd) hge
    obtain ⟨x, hx⟩ := List.length_eq_one.mp hlen1
    rw [hx] at hmem
    have hex : e = x := by simpa using hmem
    have h1 : keyCount H e.key = e.count := by
      rw [keyCount, hx]
      simp only [List.map_cons, List.map_nil, List.sum_cons, List.sum_nil, add_zero]
      rw [← hex]
    have h2 := hkc e.key
    have h0 : keyCount ([] : List ColorCount) e.key = 0 := by simp [keyCount]
    rw [h0, zero_add, h1] at h2
    exact h2

/-! ## Background matte flood fill (ImageFFTAnalyzer.tsx, lines 453-598)

createTransparentVersion copies the reconstructed buffer, seeds a queue
with every edge pixel matching the most frequent color within tolerance 5
(marking a visited flag per linear index), then repeatedly dequeues a
pixel, zeroes its alpha, and enqueues each in-bounds, unvisited, matching
4-neighbor.  The match reads only R, G and B and the fill writes only
alpha, so the match predicate is stable during the fill. -/

/-- Tolerance-5 color match of createTransparentVersion: each of R, G and
B within 5 of the target; alpha is not compared. -/
def isTargetColor (w : Nat) (d : List Nat) (tc : RGBA) (p : Nat × Nat) : Prop :=
  ((d.getD (pixelStart w p.1 p.2) 0 : Int) - (tc.r : Int)).natAbs ≤ 5 ∧
  ((d.getD (pixelStart w p.1 p.2 + 1) 0 : Int) - (tc.g : Int)).natAbs ≤ 5 ∧
  ((d.getD (pixelStart w p.1 p.2 + 2) 0 : Int) - (tc.b : Int)).natAbs ≤ 5

instance isTargetColor.instDecidable (w : Nat) (d : List Nat) (tc : RGBA)
    (p : Nat × Nat) : Decidable (isTargetColor w d tc p) := by
  unfold isTargetColor
  infer_instance

/-- The neighbor offsets of the fill, in source order. -/
def dirs : List (Int × Int) := [(-1, 0), (1, 0), (0, -1), (0, 1)]

/-- The in-bounds 4-neighbors of p (offset, then the source's bounds
check). -/
def neighbors (w h : Nat) (p : Nat × Nat) : List (Nat × Nat) :=
  dirs.filterMap fun dxy =>
    if 0 ≤ (p.1 : Int) + dxy.1 ∧ (p.1 : Int) + dxy.1 < (w : Int) ∧
        0 ≤ (p.2 : Int) + dxy.2 ∧ (p.2 : Int) + dxy.2 < (h : Int) then
      some (((p.1 : Int) + dxy.1).toNat, ((p.2 : Int) + dxy.2).toNat)
    else none

/-- Zero the alpha byte of pixel p. -/
def setAlphaZero (w : Nat) (d : List Nat) (p : Nat × Nat) : List Nat :=
  d.set (pixelStart w p.1 p.2 + 3) 0

/-- The BFS loop: dequeue p, zero its alpha, enqueue (and mark visited)
every in-bounds unvisited matching 4-neighbor.  fuel is the embedding's
iteration budget; the budget used by createTransparentVersion provably
outlasts the loop. -/
def floodFill (w h : Nat) (tc : RGBA) :
    Nat → List (Nat × Nat) → Finset (Nat × Nat) → List Nat → List Nat
  | 0, _, _, d => d
  | _ + 1, [], _, d => d
  | fuel + 1, p :: rest, visited, d =>
    let d2 := setAlphaZero w d p
    let ns := (neighbors w h p).filter fun q =>
      decide (q ∉ visited) && decide (isTargetColor w d2 tc q)
    floodFill w h tc fuel (rest ++ ns) (visited ∪ ns.toFinset) d2

/-- The seed pass: push (and mark) every matching pixel of the top and
bottom edges, then of the left and right edges.  As in the source, a
corner (or, when width or height is 1, any edge pixel) can be pushed
twice; the visited flag only guards neighbor expansion. -/
def seedQueue (w h : Nat) (tc : RGBA) (d : List Nat) : List (Nat × Nat) :=
  ((List.range w).flatMap fun x =>
    (if isTargetColor w d tc (x, 0) then [(x, 0)] else []) ++
    (if isTargetColor w d tc (x, h - 1) then [(x, h - 1)] else [])) ++
  ((List.range h).flatMap fun y =>
    (if isTargetColor w d tc (0, y) then [(0, y)] else []) ++
    (if isTargetColor w d tc (w - 1, y) then [(w - 1, y)] else []))

/-- createTransparentVersion: copy the buffer, seed from the four edges,
flood fill until the queue drains. -/
def createTransparentVersion (tc : RGBA) (d : List Nat) (w h : Nat) : List Nat :=
  floodFill w h tc (5 * (w * h) + (seedQueue w h tc d).length)
    (seedQueue w h tc d) (seedQueue w h tc d).toFinset d

/-- The 4-connected closure from the border of the pixels matching the
target color within tolerance: exactly the set of pixels the claim says
the matte removes. -/
inductive Reaches (w h : Nat) (tc : RGBA) (d : List Nat) : Nat × Nat → Prop
  | border (p : Nat × Nat) : p.1 < w → p.2 < h →
      (p.1 = 0 ∨ p.1 = w - 1 ∨ p.2 = 0 ∨ p.2 = h - 1) →
      isTargetColor w d tc p → Reaches w h tc d p
  | adjacent (p q : Nat × Nat) : Reaches w h tc d p → q ∈ neighbors w h p →
      isTargetColor w d tc q → Reaches w h tc d q

lemma getD_set_ne (l : List Nat) (i j v : Nat) (hij : i ≠ j) :
    (l.set i v).getD j 0 = l.getD j 0 := by
  rw [List.getD_eq_getElem?_getD, List.getD_eq_getElem?_getD, List.getElem?_set_ne hij]

lemma getD_set_self_zero (l : List Nat) (i : Nat) : (l.set i 0).getD i 0 = 0 := by
  rcases Nat.lt_or_ge i l.length with hlt | hge
  · rw [List.getD_eq_getElem?_getD, List.getElem?_set_self (by simpa using hlt)]
    rfl
  · rw [List.set_eq_of_length_le hge, List.getD_eq_default _ _ hge]

lemma pixelStart_alpha_mod (w x y : Nat) : (pixelStart w x y + 3) % 4 = 3 := by
  rw [pixelStart]
  omega

lemma pixelStart_inj (w : Nat) {p q : Nat × Nat} (hp : p.1 < w) (hq : q.1 < w)
    (hne : p ≠ q) : pixelStart w p.1 p.2 ≠ pixelStart w q.1 q.2 := by
  intro heq
  rw [pixelStart, pixelStart] at heq
  have hw : 0 < w := by omega
  have h4 : p.2 * w + p.1 = q.2 * w + q.1 := by omega
  have hy : p.2 = q.2 := by
    by_contra hne2
    rcases Nat.lt_or_ge p.2 q.2 with hlt | hge
    · have hmul : (p.2 + 1) * w ≤ q.2 * w := Nat.mul_le_mul_right w (by omega)
      rw [Nat.succ_mul] at hmul
      omega
    · have hmul : (q.2 + 1) * w ≤ p.2 * w := Nat.mul_le_mul_right w (by omega)
      rw [Nat.succ_mul] at hmul
      omega
  have hx : p.1 = q.1 := by
    rw [hy] at h4
    omega
  exact hne (Prod.ext hx hy)

lemma isTargetColor_congr (w : Nat) (d1 d2 : List Nat) (tc : RGBA) (q : Nat × Nat)
    (hrgb : ∀ j, j % 4 ≠ 3 → d1.getD j 0 = d2.getD j 0) :
    isTargetColor w d1 tc q ↔ isTargetColor w d2 tc q := by
  rw [isTargetColor, isTargetColor,
    hrgb (pixelStart w q.1 q.2) (by rw [pixelStart]; omega),
    hrgb (pixelStart w q.1 q.2 + 1) (by rw [pixelStart]; omega),
    hrgb (pixelStart w q.1 q.2 + 2) (by rw [pixelStart]; omega)]

lemma setAlphaZero_length (w : Nat) (d : List Nat) (p : Nat × Nat) :
    (setAlphaZero w d p).length = d.length := by
  rw [setAlphaZero, List.length_set]

lemma setAlphaZero_rgb (w : Nat) (d : List Nat) (p : Nat × Nat) (j : Nat)
    (hj : j % 4 ≠ 3) : (setAlphaZero w d p).getD j 0 = d.getD j 0 := by
  apply getD_set_ne
  have := pixelStart_alpha_mod w p.1 p.2
  omega

lemma mem_neighbors_bounds {w h : Nat} {p q : Nat × Nat} (hq : q ∈ neighbors w h p) :
    q.1 < w ∧ q.2 < h := by
  rw [neighbors, List.mem_filterMap] at hq
  rcases hq with ⟨dxy, _, hsome⟩
  split_ifs at hsome with hb
  injection hsome with hs
  rw [← hs]
  constructor <;> simp only [] <;> omega

lemma reaches_bounds {w h : Nat} {tc : RGBA} {d : List Nat} {p : Nat × Nat}
    (hr : Reaches w h tc d p) : p.1 < w ∧ p.2 < h := by
  induction hr with
  | border p h1 h2 _ _ => exact ⟨h1, h2⟩
  | adjacent p q _ hmem _ _ => exact mem_neighbors_bounds hmem

lemma reaches_target {w h : Nat} {tc : RGBA} {d : List Nat} {p : Nat × Nat}
    (hr : Reaches w h tc d p) : isTargetColor w d tc p := by
  induction hr with
  | border _ _ _ _ ht => exact ht
  | adjacent _ _ _ _ ht _ => exact ht

lemma mem_seedQueue_iff (w h : Nat) (tc : RGBA) (d : List Nat) (hw : 1 ≤ w) (hh : 1 ≤ h)
    (p : Nat × Nat) :
    p ∈ seedQueue w h tc d ↔
      p.1 < w ∧ p.2 < h ∧ (p.1 = 0 ∨ p.1 = w - 1 ∨ p.2 = 0 ∨ p.2 = h - 1) ∧
        isTargetColor w d tc p := by
  constructor
  · intro hp
    rcases List.mem_append.mp hp with hX | hY
    · rw [List.mem_flatMap] at hX
      rcases hX with ⟨x, hxr, hmem⟩
      have hxw : x < w := List.mem_range.mp hxr
      rcases List.mem_append.mp hmem with h1 | h2
      · split_ifs at h1 with ht
        · have hp0 : p = (x, 0) := by simpa using h1
          subst hp0
          exact ⟨hxw, by omega, by simp, ht⟩
        · exact absurd h1 (List.not_mem_nil p)
      · split_ifs at h2 with ht
        · have hp0 : p = (x, h - 1) := by simpa using h2
          subst hp0
          exact ⟨hxw, by omega, by simp, ht⟩
        · exact absurd h2 (List.not_mem_nil p)
    · rw [List.mem_flatMap] at hY
      rcases hY with ⟨y, hyr, hmem⟩
      have hyh : y < h := List.mem_range.mp hyr
      rcases List.mem_append.mp hmem with h1 | h2
      · split_ifs at h1 with ht
        · have hp0 : p = (0, y) := by simpa using h1
          subst hp0
          exact ⟨by omega, hyh, by simp, ht⟩
        · exact absurd h1 (List.not_mem_nil p)
      · split_ifs at h2 with ht
        · have hp0 : p = (w - 1, y) := by simpa using h2
          subst hp0
          exact ⟨by omega, hyh, by simp, ht⟩
        · exact absurd h2 (List.not_mem_nil p)
  · rintro ⟨h1, h2, hb, ht⟩
    rcases hb with hb | hb | hb | hb
    · apply List.mem_append.mpr
      right
      rw [List.mem_flatMap]
      refine ⟨p.2, List.mem_range.mpr h2, List.mem_append.mpr (Or.inl ?_)⟩
      have hp0 : p = (0, p.2) := by
        rw [← hb]
      rw [← hp0, if_pos (hp0 ▸ ht)]
      simp
    · apply List.mem_append.mpr
      right
      rw [List.mem_flatMap]
      refine ⟨p.2, List.mem_range.mpr h2, List.mem_append.mpr (Or.inr ?_)⟩
      have hp0 : p = (w - 1, p.2) := by
        rw [← hb]
      rw [← hp0, if_pos (hp0 ▸ ht)]
      simp
    · apply List.mem_append.mpr
      left
      rw [List.mem_flatMap]
      refine ⟨p.1, List.mem_range.mpr h1, List.mem_append.mpr (Or.inl ?_)⟩
      have hp0 : p = (p.1, 0) := by
        rw [← hb]
      rw [← hp0, if_pos (hp0 ▸ ht)]
      simp
    · apply List.mem_append.mpr
      left
      rw [List.mem_flatMap]
      refine ⟨p.1, List.mem_range.mpr h1, List.mem_append.mpr (Or.inr ?_)⟩
      have hp0 : p = (p.1, h - 1) := by
        rw [← hb]
      rw [← hp0, if_pos (hp0 ▸ ht)]
      simp

lemma floodFill_final (w h : Nat) (tc : RGBA) (d0 d : List Nat)
    (vis Z : Finset (Nat × Nat))
    (hzv : ∀ p ∈ Z, p ∈ vis) (hvz : ∀ p ∈ vis, p ∈ Z)
    (hlen : d.length = d0.length)
    (hrgb : ∀ j, j % 4 ≠ 3 → d.getD j 0 = d0.getD j 0)
    (halphaout : ∀ p : Nat × Nat, p.1 < w → p.2 < h → p ∉ Z →
      d.getD (pixelStart w p.1 p.2 + 3) 0 = d0.getD (pixelStart w p.1 p.2 + 3) 0)
    (halphain : ∀ p ∈ Z, d.getD (pixelStart w p.1 p.2 + 3) 0 = 0)
    (hreach : ∀ p ∈ vis, Reaches w h tc d0 p)
    (hclosed : ∀ p ∈ Z, ∀ q ∈ neighbors w h p, isTargetColor w d0 tc q → q ∈ vis)
    (hseeds : ∀ p : Nat × Nat, p.1 < w → p.2 < h →
      (p.1 = 0 ∨ p.1 = w - 1 ∨ p.2 = 0 ∨ p.2 = h - 1) →
      isTargetColor w d0 tc p → p ∈ vis) :
    d.length = d0.length ∧
    (∀ j, j % 4 ≠ 3 → d.getD j 0 = d0.getD j 0) ∧
    (∀ p : Nat × Nat, Reaches w h tc d0 p → d.getD (pixelStart w p.1 p.2 + 3) 0 = 0) ∧
    (∀ p : Nat × Nat, p.1 < w → p.2 < h → ¬ Reaches w h tc d0 p →
      d.getD (pixelStart w p.1 p.2 + 3) 0 = d0.getD (pixelStart w p.1 p.2 + 3) 0) := by
  have hRZ : ∀ p : Nat × Nat, Reaches w h tc d0 p → p ∈ Z := by
    intro p hr
    induction hr with
    | border p hb1 hb2 hb ht => exact hvz _ (hseeds p hb1 hb2 hb ht)
    | adjacent p q _ hmem ht ihp => exact hvz _ (hclosed p ihp q hmem ht)
  refine ⟨hlen, hrgb, ?_, ?_⟩
  · intro p hr
    exact halphain p (hRZ p hr)
  · intro p hp1 hp2 hnr
    apply halphaout p hp1 hp2
    intro hpz
    exact hnr (hreach p (hzv p hpz))

lemma floodFill_spec (w h : Nat) (tc : RGBA) (d0 : List Nat) :
    ∀ (fuel : Nat) (queue : List (Nat × Nat)) (vis Z : Finset (Nat × Nat)) (d : List Nat),
    5 * (w * h - vis.card) + queue.length ≤ fuel →
    (∀ p ∈ queue, p ∈ vis) →
    (∀ p ∈ vis, p.1 < w ∧ p.2 < h) →
    (∀ p ∈ vis, p ∈ Z ∨ p ∈ queue) →
    (∀ p ∈ Z, p ∈ vis) →
    d.length = d0.length →
    (∀ j, j % 4 ≠ 3 → d.getD j 0 = d0.getD j 0) →
    (∀ p : Nat × Nat, p.1 < w → p.2 < h → p ∉ Z →
      d.getD (pixelStart w p.1 p.2 + 3) 0 = d0.getD (pixelStart w p.1 p.2 + 3) 0) →
    (∀ p ∈ Z, d.getD (pixelStart w p.1 p.2 + 3) 0 = 0) →
    (∀ p ∈ vis, Reaches w h tc d0 p) →
    (∀ p ∈ Z, ∀ q ∈ neighbors w h p, isTargetColor w d0 tc q → q ∈ vis) →
    (∀ p : Nat × Nat, p.1 < w → p.2 < h →
      (p.1 = 0 ∨ p.1 = w - 1 ∨ p.2 = 0 ∨ p.2 = h - 1) →
      isTargetColor w d0 tc p → p ∈ vis) →
    (floodFill w h tc fuel queue vis d).length = d0.length ∧
    (∀ j, j % 4 ≠ 3 → (floodFill w h tc fuel queue vis d).getD j 0 = d0.getD j 0) ∧
    (∀ p : Nat × Nat, Reaches w h tc d0 p →
      (floodFill w h tc fuel queue vis d).getD (pixelStart w p.1 p.2 + 3) 0 = 0) ∧
    (∀ p : Nat × Nat, p.1 < w → p.2 < h → ¬ Reaches w h tc d0 p →
      (floodFill w h tc fuel queue vis d).getD (pixelStart w p.1 p.2 + 3) 0 =
        d0.getD (pixelStart w p.1 p.2 + 3) 0) := by
  intro fuel
  induction fuel with
  | zero =>
    intro queue vis Z d hfuel hq hvb hvzq hzv hlen hrgb hao hai hre hcl hse
    have hq0 : queue = [] := List.length_eq_zero.mp (by omega)
    subst hq0
    rw [show floodFill w h tc 0 [] vis d = d from rfl]
    exact floodFill_final w h tc d0 d vis Z hzv
      (fun p hp => (hvzq p hp).resolve_right (List.not_mem_nil p))
      hlen hrgb hao hai hre hcl hse
  | succ fuel ih =>
    intro queue vis Z d hfuel hq hvb hvzq hzv hlen hrgb hao hai hre hcl hse
    cases queue with
    | nil =>
      rw [show floodFill w h tc (fuel + 1) [] vis d = d from rfl]
      exact floodFill_final w h tc d0 d vis Z hzv
        (fun p hp => (hvzq p hp).resolve_right (List.not_mem_nil p))
        hlen hrgb hao hai hre hcl hse
    | cons p rest =>
      have hpvis : p ∈ vis := hq p (List.mem_cons_self p rest)
      obtain ⟨hpw, hph⟩ := hvb p hpvis
      set d2 := setAlphaZero w d p with hd2
      set ns := (neighbors w h p).filter (fun q =>
        decide (q ∉ vis) && decide (isTargetColor w d2 tc q)) with hns
      have hstep : floodFill w h tc (fuel + 1) (p :: rest) vis d =
          floodFill w h tc fuel (rest ++ ns) (vis ∪ ns.toFinset) d2 := rfl
      rw [hstep]
      have hrgb2 : ∀ j, j % 4 ≠ 3 → d2.getD j 0 = d0.getD j 0 := fun j hj =>
        (setAlphaZero_rgb w d p j hj).trans (hrgb j hj)
      have htarget2 : ∀ q, isTargetColor w d2 tc q ↔ isTargetColor w d0 tc q :=
        fun q => isTargetColor_congr w d2 d0 tc q hrgb2
      have hns_mem : ∀ q, q ∈ ns ↔
          q ∈ neighbors w h p ∧ q ∉ vis ∧ isTargetColor w d0 tc q := by
        intro q
        rw [hns, List.mem_filter]
        constructor
        · rintro ⟨hm, hb⟩
          rw [Bool.and_eq_true, decide_eq_true_eq, decide_eq_true_eq] at hb
          exact ⟨hm, hb.1, (htarget2 q).mp hb.2⟩
        · rintro ⟨hm, hnv, ht⟩
          refine ⟨hm, ?_⟩
          rw [Bool.and_eq_true, decide_eq_true_eq, decide_eq_true_eq]
          exact ⟨hnv, (htarget2 q).mpr ht⟩
      have hns_grid : ∀ q ∈ ns, q.1 < w ∧ q.2 < h := fun q hq2 =>
        mem_neighbors_bounds ((hns_mem q).mp hq2).1
      have hdisj : Disjoint vis ns.toFinset := by
        rw [Finset.disjoint_left]
        intro a ha hat
        exact ((hns_mem a).mp (List.mem_toFinset.mp hat)).2.1 ha
      have hnslen : ns.length ≤ 4 := by
        calc ns.length ≤ (neighbors w h p).length := List.length_filter_le _ _
        _ ≤ dirs.length := List.length_filterMap_le _ _
        _ = 4 := rfl
      have hcard_union : (vis ∪ ns.toFinset).card = vis.card + ns.toFinset.card :=
        Finset.card_union_of_disjoint hdisj
      have hgrid : (vis ∪ ns.toFinset).card ≤ w * h := by
        have hsub : vis ∪ ns.toFinset ⊆ (Finset.range w) ×ˢ (Finset.range h) := by
          intro a ha
          rcases Finset.mem_union.mp ha with ha2 | ha2
          · obtain ⟨hb1, hb2⟩ := hvb a ha2
            exact Finset.mem_product.mpr ⟨Finset.mem_range.mpr hb1, Finset.mem_range.mpr hb2⟩
          · obtain ⟨hb1, hb2⟩ := hns_grid a (List.mem_toFinset.mp ha2)
            exact Finset.mem_product.mpr ⟨Finset.mem_range.mpr hb1, Finset.mem_range.mpr hb2⟩
        calc (vis ∪ ns.toFinset).card ≤ ((Finset.range w) ×ˢ (Finset.range h)).card :=
          Finset.card_le_card hsub
        _ = w * h := by rw [Finset.card_product, Finset.card_range, Finset.card_range]
      have hfuel2 : 5 * (w * h - (vis ∪ ns.toFinset).card) + (rest ++ ns).length ≤ fuel := by
        rw [List.length_append, hcard_union]
        rw [List.length_cons] at hfuel
        rw [hcard_union] at hgrid
        by_cases hnil : ns = []
        · rw [hnil]
          simp only [List.length_nil, List.toFinset_nil, Finset.card_empty, add_zero]
          omega
        · have hkpos : 1 ≤ ns.toFinset.card := by
            rcases List.exists_mem_of_ne_nil ns hnil with ⟨q, hq2⟩
            exact Finset.card_pos.mpr ⟨q, List.mem_toFinset.mpr hq2⟩
          omega
      refine ih (rest ++ ns) (vis ∪ ns.toFinset) (insert p Z) d2 hfuel2
        ?_ ?_ ?_ ?_ ?_ ?_ ?_ ?_ ?_ ?_ ?_
      · intro q hq2
        rcases List.mem_append.mp hq2 with hq3 | hq3
        · exact Finset.mem_union_left _ (hq q (List.mem_cons_of_mem p hq3))
        · exact Finset.mem_union_right _ (List.mem_toFinset.mpr hq3)
      · intro q hq2
        rcases Finset.mem_union.mp hq2 with hq3 | hq3
        · exact hvb q hq3
        · exact hns_grid q (List.mem_toFinset.mp hq3)
      · intro q hq2
        rcases Finset.mem_union.mp hq2 with hq3 | hq3
        · rcases hvzq q hq3 with hq4 | hq4
          · exact Or.inl (Finset.mem_insert_of_mem hq4)
          · rcases List.mem_cons.mp hq4 with hq5 | hq5
            · exact Or.inl (hq5 ▸ Finset.mem_insert_self p Z)
            · exact Or.inr (List.mem_append.mpr (Or.inl hq5))
        · exact Or.inr (List.mem_append.mpr (Or.inr (List.mem_toFinset.mp hq3)))
      · intro q hq2
        rcases Finset.mem_insert.mp hq2 with hq3 | hq3
        · exact hq3 ▸ Finset.mem_union_left _ hpvis
        · exact Finset.mem_union_left _ (hzv q hq3)
      · rw [hd2, setAlphaZero_length]
        exact hlen
      · exact hrgb2
      · intro q hq1 hq2 hqz
        have hqnp : q ≠ p := fun he => hqz (he ▸ Finset.mem_insert_self p Z)
        have hqnz : q ∉ Z := fun hz => hqz (Finset.mem_insert_of_mem hz)
        have hidx : pixelStart w p.1 p.2 + 3 ≠ pixelStart w q.1 q.2 + 3 := by
          have := pixelStart_inj w hpw hq1 (Ne.symm hqnp)
          omega
        rw [hd2, setAlphaZero, getD_set_ne _ _ _ _ hidx]
        exact hao q hq1 hq2 hqnz
      · intro q hq2
        by_cases hqp : q = p
        · subst hqp
          rw [hd2, setAlphaZero]
          exact getD_set_self_zero d _
        · rcases Finset.mem_insert.mp hq2 with hq3 | hq3
          · exact absurd hq3 hqp
          · obtain ⟨hq1a, hq1b⟩ := hvb q (hzv q hq3)
            have hidx : pixelStart w p.1 p.2 + 3 ≠ pixelStart w q.1 q.2 + 3 := by
              have := pixelStart_inj w hpw hq1a (fun he => hqp (he.symm))
              omega
            rw [hd2, setAlphaZero, getD_set_ne _ _ _ _ hidx]
            exact hai q hq3
      · intro q hq2
        rcases Finset.mem_union.mp hq2 with hq3 | hq3
        · exact hre q hq3
        · obtain ⟨hm, _, ht⟩ := (hns_mem q).mp (List.mem_toFinset.mp hq3)
          exact Reaches.adjacent p q (hre p hpvis) hm ht
      · intro z hz
        rcases Finset.mem_insert.mp hz with hzp | hzZ
        · subst hzp
          intro q hqn ht
          by_cases hqv : q ∈ vis
          · exact Finset.mem_union_left _ hqv
          · exact Finset.mem_union_right _
              (List.mem_toFinset.mpr ((hns_mem q).mpr ⟨hqn, hqv, ht⟩))
        · intro q hqn ht
          exact Finset.mem_union_left _ (hcl z hzZ q hqn ht)
      · intro q hb1 hb2 hb ht
        exact Finset.mem_union_left _ (hse q hb1 hb2 hb ht)

lemma createTransparentVersion_eq_floodFill (w h : Nat) (tc : RGBA) (d : List Nat) :
    createTransparentVersion tc d w h =
      floodFill w h tc (5 * (w * h) + (seedQueue w h tc d).length)
        (seedQueue w h tc d) (seedQueue w h tc d).toFinset d := rfl

lemma createTransparentVersion_spec (w h : Nat) (tc : RGBA) (d : List Nat)
    (hw : 1 ≤ w) (hh : 1 ≤ h) :
    (createTransparentVersion tc d w h).length = d.length ∧
    (∀ j, j % 4 ≠ 3 → (createTransparentVersion tc d w h).getD j 0 = d.getD j 0) ∧
    (∀ p : Nat × Nat, Reaches w h tc d p →
      (createTransparentVersion tc d w h).getD (pixelStart w p.1 p.2 + 3) 0 = 0) ∧
    (∀ p : Nat × Nat, p.1 < w → p.2 < h → ¬ Reaches w h tc d p →
      (createTransparentVersion tc d w h).getD (pixelStart w p.1 p.2 + 3) 0 =
        d.getD (pixelStart w p.1 p.2 + 3) 0) := by
  rw [createTransparentVersion_eq_floodFill]
  apply floodFill_spec w h tc d
  · omega
  · intro p hp
    exact List.mem_toFinset.mpr hp
  · intro p hp
    obtain ⟨h1, h2, _, _⟩ := (mem_seedQueue_iff w h tc d hw hh p).mp (List.mem_toFinset.mp hp)
    exact ⟨h1, h2⟩
  · intro p hp
    exact Or.inr (List.mem_toFinset.mp hp)
  · intro p hp
    exact absurd hp (Finset.not_mem_empty p)
  · rfl
  · intro j _
    rfl
  · intro p _ _ _
    rfl
  · intro p hp
    exact absurd hp (Finset.not_mem_empty p)
  · intro p hp
    obtain ⟨h1, h2, hb, ht⟩ := (mem_seedQueue_iff w h tc d hw hh p).mp (List.mem_toFinset.mp hp)
    exact Reaches.border p h1 h2 hb ht
  · intro p hp
    exact absurd hp (Finset.not_mem_empty p)
  · intro p h1 h2 hb ht
    exact List.mem_toFinset.mpr ((mem_seedQueue_iff w h tc d hw hh p).mpr ⟨h1, h2, hb, ht⟩)

/-- C1: the pixels whose alpha the background matte zeroes are exactly the
4-connected closure, from the border, of the pixels matching the target
color within tolerance 5: a reached pixel's alpha becomes 0, and a pixel
not reached (in particular an interior pixel matching the target color
but not border-connected through matching pixels) keeps its original
alpha. -/
theorem createTransparentVersion_removes_exactly_reachable (w h : Nat) (tc : RGBA)
    (d : List Nat) (hw : 1 ≤ w) (hh : 1 ≤ h) (hdlen : d.length = 4 * (w * h))
    (x y : Nat) (hx : x < w) (hy : y < h) :
    (Reaches w h tc d (x, y) →
      alphaAt w (createTransparentVersion tc d w h) x y = 0) ∧
    (¬ Reaches w h tc d (x, y) →
      alphaAt w (createTransparentVersion tc d w h) x y = alphaAt w d x y) := by
  obtain ⟨_, _, c3, c4⟩ := createTransparentVersion_spec w h tc d hw hh
  exact ⟨fun hr => c3 (x, y) hr, fun hnr => c4 (x, y) hx hy hnr⟩

/-- Witness for C1 on a concrete 3-by-3 image: a one-pixel dark border
frame around a red center, matted against the frame color.  The instance
is taken at the center pixel (1, 1). -/
theorem createTransparentVersion_removes_witness :
    (Reaches 3 3 ⟨10, 10, 10, 255⟩
        [10, 10, 10, 255, 10, 10, 10, 255, 10, 10, 10, 255,
         10, 10, 10, 255, 200, 0, 0, 255, 10, 10, 10, 255,
         10, 10, 10, 255, 10, 10, 10, 255, 10, 10, 10, 255] (1, 1) →
      alphaAt 3 (createTransparentVersion ⟨10, 10, 10, 255⟩
        [10, 10, 10, 255, 10, 10, 10, 255, 10, 10, 10, 255,
         10, 10, 10, 255, 200, 0, 0, 255, 10, 10, 10, 255,
         10, 10, 10, 255, 10, 10, 10, 255, 10, 10, 10, 255] 3 3) 1 1 = 0) ∧
    (¬ Reaches 3 3 ⟨10, 10, 10, 255⟩
        [10, 10, 10, 255, 10, 10, 10, 255, 10, 10, 10, 255,
         10, 10, 10, 255, 200, 0, 0, 255, 10, 10, 10, 255,
         10, 10, 10, 255, 10, 10, 10, 255, 10, 10, 10, 255] (1, 1) →
      alphaAt 3 (createTransparentVersion ⟨10, 10, 10, 255⟩
        [10, 10, 10, 255, 10, 10, 10, 255, 10, 10, 10, 255,
         10, 10, 10, 255, 200, 0, 0, 255, 10, 10, 10, 255,
         10, 10, 10, 255, 10, 10, 10, 255, 10, 10, 10, 255] 3 3) 1 1 =
        alphaAt 3
        [10, 10, 10, 255, 10, 10, 10, 255, 10, 10, 10, 255,
         10, 10, 10, 255, 200, 0, 0, 255, 10, 10, 10, 255,
         10, 10, 10, 255, 10, 10, 10, 255, 10, 10, 10, 255] 1 1) :=
  createTransparentVersion_removes_exactly_reachable 3 3 ⟨10, 10, 10, 255⟩
    [10, 10, 10, 255, 10, 10, 10, 255, 10, 10, 10, 255,
     10, 10, 10, 255, 200, 0, 0, 255, 10, 10, 10, 255,
     10, 10, 10, 255, 10, 10, 10, 255, 10, 10, 10, 255]
    (by decide) (by decide) (by decide) 1 1 (by decide) (by decide)

/-- C8: the matte writes a fresh buffer of the same length whose R, G and
B bytes equal the input's everywhere; only alpha differs, and only at the
pixels the flood fill removes (every pixel not reached keeps its alpha). -/
theorem createTransparentVersion_frame_effect (w h : Nat) (tc : RGBA) (d : List Nat)
    (hw : 1 ≤ w) (hh : 1 ≤ h) (hdlen : d.length = 4 * (w * h)) :
    (createTransparentVersion tc d w h).length = d.length ∧
    (∀ j, j % 4 ≠ 3 → (createTransparentVersion tc d w h).getD j 0 = d.getD j 0) ∧
    ∀ x y, x < w → y < h → ¬ Reaches w h tc d (x, y) →
      alphaAt w (createTransparentVersion tc d w h) x y = alphaAt w d x y := by
  obtain ⟨c1, c2, _, c4⟩ := createTransparentVersion_spec w h tc d hw hh
  exact ⟨c1, c2, fun x y hx hy hnr => c4 (x, y) hx hy hnr⟩

/-- Witness for C8 on a concrete 2-by-2 image. -/
theorem createTransparentVersion_frame_witness :
    (createTransparentVersion ⟨7, 7, 7, 255⟩
        [7, 7, 7, 255, 7, 7, 7, 255, 7, 7, 7, 255, 9, 9, 9, 128] 2 2).length =
      ([7, 7, 7, 255, 7, 7, 7, 255, 7, 7, 7, 255, 9, 9, 9, 128] : List Nat).length ∧
    (∀ j, j % 4 ≠ 3 → (createTransparentVersion ⟨7, 7, 7, 255⟩
        [7, 7, 7, 255, 7, 7, 7, 255, 7, 7, 7, 255, 9, 9, 9, 128] 2 2).getD j 0 =
      ([7, 7, 7, 255, 7, 7, 7, 255, 7, 7, 7, 255, 9, 9, 9, 128] : List Nat).getD j 0) ∧
    ∀ x y, x < 2 → y < 2 →
      ¬ Reaches 2 2 ⟨7, 7, 7, 255⟩
        [7, 7, 7, 255, 7, 7, 7, 255, 7, 7, 7, 255, 9, 9, 9, 128] (x, y) →
      alphaAt 2 (createTransparentVersion ⟨7, 7, 7, 255⟩
        [7, 7, 7, 255, 7, 7, 7, 255, 7, 7, 7, 255, 9, 9, 9, 128] 2 2) x y =
        alphaAt 2 [7, 7, 7, 255, 7, 7, 7, 255, 7, 7, 7, 255, 9, 9, 9, 128] x y :=
  createTransparentVersion_frame_effect 2 2 ⟨7, 7, 7, 255⟩
    [7, 7, 7, 255, 7, 7, 7, 255, 7, 7, 7, 255, 9, 9, 9, 128]
    (by decide) (by decide) (by decide)

end Geft
